import Mathlib

/-!
Verification of the folk staff-directory service (Go sources `api.go`,
`folk.go`) against its natural-language specification.

The embedding models the relational store as explicit lists of rows
(`Department`, `Person`), the HTTP handlers of `api.go` as pure state-passing
functions, and the asynchronous full-text-index mutations as an explicit list
of emitted `IndexOp` values.
-/

namespace Folk

/-- A row of the `Department` table (`api.go`): `id()`, `Name`, `Parent`. -/
structure Department where
  ID : Int
  Name : String
  Parent : Int
deriving DecidableEq, Repr

/-- A row of the `Person` table (`api.go`).  The `Updated` timestamp column is
not modelled: no verified property mentions it. -/
structure Person where
  ID : Int
  Name : String
  Dept : Int
  Email : String
  Phone : String
  Img : String
  Role : String
  Info : String
deriving DecidableEq, Repr

/-- The database state visible to the handlers: the two tables plus the id
counter backing `ctx.LastInsertID`. -/
structure DBState where
  depts : List Department
  persons : List Person
  nextID : Int
deriving DecidableEq, Repr

/-- Outcome of a handler, mirroring the `(status, body, error)` triples of the
tigertonic-marshaled handlers: either an error status with its message, or a
success status with the marshaled body. -/
inductive Reply (α : Type) where
  | failure (status : Nat) (msg : String)
  | success (status : Nat) (body : α)
deriving DecidableEq, Repr

/-! ## Department listing (`getAllDepartments`, api.go) -/

/-- The comparison the store uses for `ORDER BY Name ASC` in `qGetAllDepts`:
lexicographic order on the names' character sequences. -/
def byName (a b : Department) : Prop := a.Name.data ≤ b.Name.data

instance : DecidableRel byName := fun a b =>
  inferInstanceAs (Decidable (a.Name.data ≤ b.Name.data))

instance : IsTrans Department byName := ⟨fun _ _ _ h h' => le_trans h h'⟩

instance : IsTotal Department byName := ⟨fun a b => le_total a.Name.data b.Name.data⟩

/-- The rows of `qGetAllDepts`: all departments in ascending name order. -/
def sortByName (ds : List Department) : List Department :=
  List.insertionSort byName ds

/-- `getAllDepartments` (api.go): fetch all departments sorted by name, group
them by `Parent`, then emit each root department (`Parent == 0`) followed by
the departments whose `Parent` is that root's id.  Grouping by a map whose
per-key slices are filled in query order is modelled by filtering the
name-sorted list. -/
def getAllDepartments (ds : List Department) : List Department :=
  ((sortByName ds).filter (fun d => d.Parent == 0)).flatMap
    (fun m => m :: (sortByName ds).filter (fun d => d.Parent == m.ID))

/-- Written from the spec's words for `listAll()`: the root departments in
ascending name order, each immediately followed by its direct children in
ascending name order. -/
def listAllSpec (ds : List Department) : List Department :=
  (sortByName (ds.filter (fun d => d.Parent == 0))).flatMap
    (fun m => m :: sortByName (ds.filter (fun d => d.Parent == m.ID)))

/-- The six departments of the spec's `listAll` ordering example. -/
def exA : Department := ⟨1, "mainA", 0⟩

def exB : Department := ⟨2, "mainB", 0⟩

def exC : Department := ⟨3, "mainC", 0⟩

def exD : Department := ⟨4, "subD", 1⟩

def exE : Department := ⟨5, "subE", 1⟩

def exF : Department := ⟨6, "subF", 2⟩

/-- The example table, in scrambled insertion order. -/
def exDepts : List Department := [exC, exE, exD, exA, exF, exB]

/-- A table with a department whose parent id (5) matches no department. -/
def orphanDepts : List Department := [⟨1, "a", 0⟩, ⟨2, "b", 5⟩]

/-! ### Sorting and partition lemmas for the department listing -/

/-- Filtering commutes with ordered insertion into a sorted list. -/
theorem filter_orderedInsert {α : Type} (r : α → α → Prop) [DecidableRel r] [IsTrans α r]
    (p : α → Bool) (a : α) :
    ∀ l : List α, l.Sorted r →
      (List.orderedInsert r a l).filter p =
        if p a then List.orderedInsert r a (l.filter p) else l.filter p := by
  intro l
  induction l with
  | nil =>
    intro _
    by_cases hpa : p a <;> simp [List.orderedInsert, hpa]
  | cons b t ih =>
    intro hs
    have hbt : ∀ c ∈ t, r b c := List.rel_of_sorted_cons hs
    have hts : t.Sorted r := hs.of_cons
    by_cases hab : r a b
    · rw [List.orderedInsert_of_le r t hab]
      by_cases hpa : p a
      · rw [if_pos hpa, List.filter_cons_of_pos hpa]
        have hall : ∀ c ∈ (b :: t).filter p, r a c := by
          intro c hc
          rcases List.mem_filter.mp hc with ⟨hc, _⟩
          rcases List.mem_cons.mp hc with h | h
          · exact h ▸ hab
          · exact IsTrans.trans a b c hab (hbt c h)
        cases hfl : (b :: t).filter p with
        | nil => simp [List.orderedInsert]
        | cons c cs =>
          have hac : r a c := hall c (hfl ▸ List.mem_cons_self c cs)
          rw [List.orderedInsert_of_le r cs hac]
      · rw [if_neg hpa, List.filter_cons_of_neg hpa]
    · have hins : List.orderedInsert r a (b :: t) = b :: List.orderedInsert r a t := by
        simp [List.orderedInsert, hab]
      rw [hins]
      have iht := ih hts
      by_cases hpb : p b <;> by_cases hpa : p a <;>
        simp [List.filter_cons, hpb, hpa, iht, List.orderedInsert, hab]

/-- Filtering commutes with insertion sort (stability of the sort). -/
theorem filter_insertionSort {α : Type} (r : α → α → Prop) [DecidableRel r]
    [IsTotal α r] [IsTrans α r] (p : α → Bool) (l : List α) :
    (List.insertionSort r l).filter p = List.insertionSort r (l.filter p) := by
  induction l with
  | nil => rfl
  | cons a t ih =>
    show (List.orderedInsert r a (List.insertionSort r t)).filter p = _
    rw [filter_orderedInsert r p a _ (List.sorted_insertionSort r t), ih]
    by_cases hpa : p a
    · rw [if_pos hpa, List.filter_cons_of_pos hpa]
      rfl
    · rw [if_neg hpa, List.filter_cons_of_neg hpa]

/-- Interleaving each element with its satellite block is a permutation of the
elements followed by all the blocks. -/
theorem flatMap_cons_perm {α : Type} (f : α → List α) :
    ∀ l : List α, (l.flatMap (fun m => m :: f m)).Perm (l ++ l.flatMap f) := by
  intro l
  induction l with
  | nil => simp
  | cons m t ih =>
    simp only [List.flatMap_cons, List.cons_append]
    refine List.Perm.cons m ?_
    refine (ih.append_left (f m)).trans ?_
    rw [← List.append_assoc, ← List.append_assoc]
    exact List.perm_append_comm.append_right _

/-- Partitioning a list by a key ranging over a duplicate-free cover is a
permutation of the list. -/
theorem perm_flatMap_filter {α β : Type} [BEq β] [LawfulBEq β] (key : α → β) :
    ∀ (ks : List β) (l : List α), ks.Nodup → (∀ a ∈ l, key a ∈ ks) →
      (ks.flatMap (fun k => l.filter (fun a => key a == k))).Perm l := by
  intro ks
  induction ks with
  | nil =>
    intro l _ hcov
    have hl : l = [] := List.eq_nil_iff_forall_not_mem.mpr (fun a ha => by simpa using hcov a ha)
    subst hl
    simp
  | cons k ks ih =>
    intro l hnd hcov
    have hknotin : k ∉ ks := (List.nodup_cons.mp hnd).1
    have hndk : ks.Nodup := (List.nodup_cons.mp hnd).2
    rw [List.flatMap_cons]
    have hcongr : ks.flatMap (fun k' => l.filter (fun a => key a == k')) =
        ks.flatMap (fun k' => (l.filter (fun a => !(key a == k))).filter
          (fun a => key a == k')) := by
      apply List.flatMap_congr
      intro k' hk'
      rw [List.filter_filter]
      apply List.filter_congr
      intro a _
      by_cases h : key a == k'
      · have hak : key a = k' := by simpa using h
        have hne : ¬(key a == k) = true := by
          simp only [beq_iff_eq, hak]
          intro hkk
          exact hknotin (hkk ▸ hk')
        simp [h, hne]
      · simp [h]
    rw [hcongr]
    have hcov' : ∀ a ∈ l.filter (fun a => !(key a == k)), key a ∈ ks := by
      intro a ha
      rcases List.mem_filter.mp ha with ⟨hal, hak⟩
      rcases List.mem_cons.mp (hcov a hal) with h | h
      · exfalso
        simp [h] at hak
      · exact h
    have hperm := ih (l.filter (fun a => !(key a == k))) hndk hcov'
    exact (hperm.append_left _).trans (List.filter_append_perm _ l)

/-- `getAllDepartments` returns exactly the spec's shape: roots in ascending
name order, each immediately followed by its direct children in ascending name
order. -/
theorem getAllDepartments_eq_listAllSpec (ds : List Department) :
    getAllDepartments ds = listAllSpec ds := by
  unfold getAllDepartments listAllSpec sortByName
  have h : ∀ m : Department,
      (List.insertionSort byName ds).filter (fun d => d.Parent == m.ID) =
        List.insertionSort byName (ds.filter (fun d => d.Parent == m.ID)) :=
    fun m => filter_insertionSort byName _ ds
  rw [filter_insertionSort byName _ ds]
  simp only [h]

/-- In a well-formed two-level table (distinct nonzero ids, every nonzero
parent resolving to a root), the listing is a permutation of the table. -/
theorem getAllDepartments_perm (ds : List Department)
    (hid : (ds.map Department.ID).Nodup)
    (hnz : ∀ d ∈ ds, d.ID ≠ 0)
    (htwo : ∀ d ∈ ds, d.Parent ≠ 0 → ∃ r ∈ ds, r.Parent = 0 ∧ r.ID = d.Parent) :
    (getAllDepartments ds).Perm ds := by
  unfold getAllDepartments sortByName
  have hs : (List.insertionSort byName ds).Perm ds := List.perm_insertionSort byName ds
  have hchild : ∀ m ∈ (List.insertionSort byName ds).filter (fun d => d.Parent == 0),
      (List.insertionSort byName ds).filter (fun d => d.Parent == m.ID) =
        ((List.insertionSort byName ds).filter (fun d => !(d.Parent == 0))).filter
          (fun d => d.Parent == m.ID) := by
    intro m hm
    have hmds : m ∈ ds := hs.mem_iff.mp (List.mem_filter.mp hm).1
    have hmnz : m.ID ≠ 0 := hnz m hmds
    rw [List.filter_filter]
    apply List.filter_congr
    intro d _
    by_cases h : d.Parent == m.ID
    · have hdm : d.Parent = m.ID := by simpa using h
      simp [h, hdm, hmnz]
    · simp [h]
  rw [List.flatMap_congr (fun m hm => by rw [hchild m hm])]
  refine (flatMap_cons_perm _ _).trans ?_
  rw [← List.flatMap_map (Department.ID)
    (fun k => ((List.insertionSort byName ds).filter (fun d => !(d.Parent == 0))).filter
      (fun d => d.Parent == k))]
  have hksnd : (((List.insertionSort byName ds).filter
      (fun d => d.Parent == 0)).map Department.ID).Nodup := by
    have h1 : ((List.insertionSort byName ds).map Department.ID).Nodup :=
      ((hs.map Department.ID).nodup_iff).mpr hid
    exact ((List.filter_sublist _).map Department.ID).nodup h1
  have hcov : ∀ d ∈ (List.insertionSort byName ds).filter (fun d => !(d.Parent == 0)),
      d.Parent ∈ ((List.insertionSort byName ds).filter
        (fun d => d.Parent == 0)).map Department.ID := by
    intro d hd
    rcases List.mem_filter.mp hd with ⟨hds', hflag⟩
    have hdp : d.Parent ≠ 0 := by simpa using hflag
    have hdds : d ∈ ds := hs.mem_iff.mp hds'
    rcases htwo d hdds hdp with ⟨r, hrds, hr0, hrid⟩
    have hrroots : r ∈ (List.insertionSort byName ds).filter (fun d => d.Parent == 0) :=
      List.mem_filter.mpr ⟨hs.mem_iff.mpr hrds, by simp [hr0]⟩
    exact List.mem_map.mpr ⟨r, hrroots, hrid⟩
  have hpart := perm_flatMap_filter Department.Parent
    (((List.insertionSort byName ds).filter (fun d => d.Parent == 0)).map Department.ID)
    ((List.insertionSort byName ds).filter (fun d => !(d.Parent == 0))) hksnd hcov
  refine (hpart.append_left _).trans ?_
  exact (List.filter_append_perm _ _).trans hs

/-- C1 (amended): in a two-level department table with distinct nonzero ids in
which every nonzero parent resolves to a root department, `getAllDepartments`
returns all departments, ordered with the roots in ascending name order and
each root immediately followed by its direct children in ascending name order;
on the spec's six-department example the order is exactly A, D, E, B, F, C.
(The original claim fails for tables containing a department whose parent is
neither zero nor the id of a root: such departments are omitted.) -/
theorem claim_listAll_order :
    (∀ ds : List Department,
        (ds.map Department.ID).Nodup →
        (∀ d ∈ ds, d.ID ≠ 0) →
        (∀ d ∈ ds, d.Parent ≠ 0 → ∃ r ∈ ds, r.Parent = 0 ∧ r.ID = d.Parent) →
        (getAllDepartments ds).Perm ds ∧ getAllDepartments ds = listAllSpec ds)
    ∧ getAllDepartments exDepts = [exA, exD, exE, exB, exF, exC] := by
  constructor
  · intro ds hid hnz htwo
    exact ⟨getAllDepartments_perm ds hid hnz htwo, getAllDepartments_eq_listAllSpec ds⟩
  · decide

/-- C1 witness: the general part of the amended claim applied to the spec's
example table. -/
theorem claim_listAll_order_witness :
    (getAllDepartments exDepts).Perm exDepts ∧
      getAllDepartments exDepts = listAllSpec exDepts :=
  claim_listAll_order.1 exDepts (by decide) (by decide) (by decide)

/-- C1 counterexample: the department `⟨2, "b", 5⟩` is in the table but its
parent id 5 matches no department, and `getAllDepartments` omits it — so the
operation does not return all departments for every table state. -/
theorem claim_listAll_order_cex :
    (⟨2, "b", 5⟩ : Department) ∈ orphanDepts ∧
      (⟨2, "b", 5⟩ : Department) ∉ getAllDepartments orphanDepts := by
  decide

/-! ## Department deletion (`deleteDepartment`, api.go) -/

/-- `deleteDepartment` (api.go): refuse if any person belongs to the
department (`qDeptHasPersons`), else refuse if any department has it as parent
(`qDeptHasDept`), else run `qDeleteDept` and report 404 when zero rows were
affected, 204 otherwise.  The result pairs the HTTP status with the error
message, and the new state is returned alongside. -/
def deleteDepartment (id : Int) (s : DBState) : (Nat × Option String) × DBState :=
  if s.persons.any (fun p => p.Dept == id) then
    ((400, some "cannot delete department with associated staff"), s)
  else if s.depts.any (fun d => d.Parent == id) then
    ((400, some "cannot delete department with subdepartments"), s)
  else
    if (s.depts.filter (fun d => !(d.ID == id))).length == s.depts.length then
      ((404, some "department does not exist"),
        { s with depts := s.depts.filter (fun d => !(d.ID == id)) })
    else
      ((204, none), { s with depts := s.depts.filter (fun d => !(d.ID == id)) })

/-! ## Person creation and update (`createPerson`/`updatePerson`, api.go) -/

/-- `strings.TrimSpace`: drop leading and trailing whitespace characters. -/
def strTrim (s : String) : String :=
  ⟨((s.data.dropWhile Char.isWhitespace).reverse.dropWhile Char.isWhitespace).reverse⟩

/-- An asynchronous mutation of the full-text index, as fired by the handlers'
goroutines (`analyzer.Index` / `analyzer.UnIndex`). -/
inductive IndexOp where
  | add (text : String) (id : Int)
  | remove (text : String) (id : Int)
deriving DecidableEq, Repr

/-- `fmt.Sprintf "%v %v %v"` applied to three strings, the text handed to the
index for a person's `(Name, Role, Info)`. -/
def fmtNameRoleInfo (name role info : String) : String :=
  name ++ " " ++ role ++ " " ++ info

/-- `createPerson` (api.go): validate the trimmed name and the department id,
check the department row exists (`qGetDept`), then insert with a fresh id
(`ctx.LastInsertID`) and fire an asynchronous index operation for the new
`(Name, Role, Info)` text. -/
def createPerson (p : Person) (s : DBState) : Reply Person × DBState × List IndexOp :=
  if strTrim p.Name == "" then
    (.failure 400 "person must have a name", s, [])
  else if p.Dept == 0 then
    (.failure 400 "person must belong to a department", s, [])
  else if s.depts.any (fun d => d.ID == p.Dept) then
    (.success 201 { p with ID := s.nextID },
      { s with persons := s.persons ++ [{ p with ID := s.nextID }], nextID := s.nextID + 1 },
      [.add (fmtNameRoleInfo p.Name p.Role p.Info) s.nextID])
  else
    (.failure 404 "department does not exist", s, [])

/-- The overwrite `qUpdatePerson` performs on a matching row: every column
except the implicit id is replaced by the submitted record's value. -/
def overwritePerson (p : Person) (q : Person) : Person :=
  { q with Name := p.Name, Dept := p.Dept, Email := p.Email, Img := p.Img,
           Role := p.Role, Info := p.Info, Phone := p.Phone }

/-- `updatePerson` (api.go): validate the department id and the trimmed name,
read the old row (`qGetPerson`) so it can be unindexed, check the new
department exists, run `qUpdatePerson`, and fire — in this order — an
asynchronous unindex of the old `(Name, Role, Info)` text and an index of the
new one. -/
def updatePerson (id : Int) (p : Person) (s : DBState) :
    Reply Person × DBState × List IndexOp :=
  if p.Dept == 0 then
    (.failure 400 "person must belong to a department", s, [])
  else if strTrim p.Name == "" then
    (.failure 400 "person must have a name", s, [])
  else
    match s.persons.find? (fun q => q.ID == id) with
    | none => (.failure 404 "person not found", s, [])
    | some oldp =>
      if s.depts.any (fun d => d.ID == p.Dept) then
        (.success 200 p,
          { s with persons := s.persons.map (fun q => if q.ID == id then overwritePerson p q else q) },
          [.remove (fmtNameRoleInfo oldp.Name oldp.Role oldp.Info) id,
           .add (fmtNameRoleInfo p.Name p.Role p.Info) id])
      else
        (.failure 404 "department does not exist", s, [])

/-! ## Department update (`updateDepartment`, api.go) -/

/-- `updateDepartment` (api.go): validate the trimmed name, then run
`qUpdateDept`, which overwrites name and parent of the matching row; the
row count is never inspected, so the handler answers 200 with the submitted
entity (its `ID` field set to the path id) even when no row matched.  The
`dbFail` flag models a store failure of the `UPDATE` statement. -/
def updateDepartment (id : Int) (dept : Department) (dbFail : Bool) (s : DBState) :
    Reply Department × DBState :=
  if strTrim dept.Name == "" then
    (.failure 400 "department must have a name", s)
  else if dbFail then
    (.failure 500 "server error: database query failed", s)
  else
    (.success 200 { dept with ID := id },
      { s with depts := (s.depts.map
          (fun d => if d.ID == id then { d with Name := dept.Name, Parent := dept.Parent } else d)) })

/-! ## Image deletion (`deleteImage`, api.go) -/

/-- The removal loop of `deleteImage`: scan `imageFiles.list` and splice out
the first entry equal to `filename`, then stop. -/
def removeFirstImage (l : List String) (f : String) : List String :=
  match l with
  | [] => []
  | x :: xs => if x == f then xs else x :: removeFirstImage xs f

/-- `deleteImage` (api.go): reject a missing filename, reject when any person
references the image (`qImageUsed`), try to remove the file from disk
(`os.Remove`, failing when the file is absent), and only then splice the first
matching entry out of the shared image list.  `dbFail` models a failure of the
`qImageUsed` query; `disk` models the set of files in `data/public/img`.
Returns the status/message pair, the new disk contents, and the new list. -/
def deleteImage (filename : String) (dbFail : Bool) (persons : List Person)
    (disk : List String) (imgs : List String) :
    (Nat × Option String) × List String × List String :=
  if filename == "" then
    ((400, some "missing filename parameter"), disk, imgs)
  else if dbFail then
    ((500, some "server error: database query failed"), disk, imgs)
  else if persons.any (fun p => p.Img == filename) then
    ((400, some "image is in use; cannot delete"), disk, imgs)
  else if disk.contains filename then
    ((204, none), disk.erase filename, removeFirstImage imgs filename)
  else
    ((500, some "server error: failed to delete file"), disk, imgs)

/-- C3: `deleteDepartment` fails with the staff-conflict error when some
person references the department; otherwise with the subdepartment-conflict
error when some department has it as parent; otherwise with 404 when the id
matches no row; otherwise it deletes the row and answers 204 — and in every
conflict or not-found case the department table is unchanged. -/
theorem claim_deleteDepartment (id : Int) (s : DBState) :
    ((∃ p ∈ s.persons, p.Dept = id) →
      deleteDepartment id s =
        ((400, some "cannot delete department with associated staff"), s))
    ∧ ((¬ ∃ p ∈ s.persons, p.Dept = id) → (∃ d ∈ s.depts, d.Parent = id) →
      deleteDepartment id s =
        ((400, some "cannot delete department with subdepartments"), s))
    ∧ ((¬ ∃ p ∈ s.persons, p.Dept = id) → (¬ ∃ d ∈ s.depts, d.Parent = id) →
      (∀ d ∈ s.depts, d.ID ≠ id) →
      deleteDepartment id s = ((404, some "department does not exist"), s))
    ∧ ((¬ ∃ p ∈ s.persons, p.Dept = id) → (¬ ∃ d ∈ s.depts, d.Parent = id) →
      (∃ d ∈ s.depts, d.ID = id) →
      deleteDepartment id s =
        ((204, none), { s with depts := s.depts.filter (fun d => !(d.ID == id)) })) := by
  have hstaff : (∃ p ∈ s.persons, p.Dept = id) ↔
      s.persons.any (fun p => p.Dept == id) = true := by
    rw [List.any_eq_true]
    simp
  have hsub : (∃ d ∈ s.depts, d.Parent = id) ↔
      s.depts.any (fun d => d.Parent == id) = true := by
    rw [List.any_eq_true]
    simp
  refine ⟨fun h => ?_, fun h1 h2 => ?_, fun h1 h2 h3 => ?_, fun h1 h2 h3 => ?_⟩
  · rw [deleteDepartment, if_pos (hstaff.mp h)]
  · have hb1 : s.persons.any (fun p => p.Dept == id) = false :=
      Bool.eq_false_iff.mpr (fun hc => h1 (hstaff.mpr hc))
    simp [deleteDepartment, hb1, hsub.mp h2]
  · have hb1 : s.persons.any (fun p => p.Dept == id) = false :=
      Bool.eq_false_iff.mpr (fun hc => h1 (hstaff.mpr hc))
    have hb2 : s.depts.any (fun d => d.Parent == id) = false :=
      Bool.eq_false_iff.mpr (fun hc => h2 (hsub.mpr hc))
    have hflt : s.depts.filter (fun d => !(d.ID == id)) = s.depts :=
      List.filter_eq_self.mpr (fun d hd => by simp [h3 d hd])
    simp [deleteDepartment, hb1, hb2, hflt]
  · rcases h3 with ⟨d, hd, hdid⟩
    have hb1 : s.persons.any (fun p => p.Dept == id) = false :=
      Bool.eq_false_iff.mpr (fun hc => h1 (hstaff.mpr hc))
    have hb2 : s.depts.any (fun d => d.Parent == id) = false :=
      Bool.eq_false_iff.mpr (fun hc => h2 (hsub.mpr hc))
    have hlt : (s.depts.filter (fun d => !(d.ID == id))).length < s.depts.length := by
      apply List.length_filter_lt_length_iff_exists.mpr
      exact ⟨d, hd, by simp [hdid]⟩
    have hb3 : ((s.depts.filter (fun d => !(d.ID == id))).length == s.depts.length) = false :=
      beq_eq_false_iff_ne.mpr (Nat.ne_of_lt hlt)
    simp [deleteDepartment, hb1, hb2, hb3]

/-- C3 witness: a department with one staff member cannot be deleted and the
table is untouched. -/
theorem claim_deleteDepartment_witness :
    deleteDepartment 1
        ⟨[⟨1, "root", 0⟩], [⟨7, "ann", 1, "a@x", "1", "", "boss", "i"⟩], 8⟩ =
      ((400, some "cannot delete department with associated staff"),
        ⟨[⟨1, "root", 0⟩], [⟨7, "ann", 1, "a@x", "1", "", "boss", "i"⟩], 8⟩) :=
  (claim_deleteDepartment 1 _).1
    ⟨⟨7, "ann", 1, "a@x", "1", "", "boss", "i"⟩, by decide, rfl⟩

/-- C4: `createPerson` rejects an (after trimming) empty name with a 400
validation error, rejects `Dept == 0` with a 400 validation error, rejects a
department id matching no department row with the 404 "department does not
exist" error — inserting nothing in each failure case — and on success
returns the submitted person carrying the freshly assigned server id. -/
theorem claim_createPerson (p : Person) (s : DBState) :
    (strTrim p.Name = "" →
      createPerson p s = (.failure 400 "person must have a name", s, []))
    ∧ (p.Dept = 0 → ∃ m, createPerson p s = (.failure 400 m, s, []))
    ∧ (strTrim p.Name ≠ "" → p.Dept ≠ 0 → (∀ d ∈ s.depts, d.ID ≠ p.Dept) →
      createPerson p s = (.failure 404 "department does not exist", s, []))
    ∧ (strTrim p.Name ≠ "" → p.Dept ≠ 0 → (∃ d ∈ s.depts, d.ID = p.Dept) →
      createPerson p s =
        (.success 201 { p with ID := s.nextID },
          { s with persons := s.persons ++ [{ p with ID := s.nextID }],
                   nextID := s.nextID + 1 },
          [.add (fmtNameRoleInfo p.Name p.Role p.Info) s.nextID])) := by
  refine ⟨fun h => ?_, fun h => ?_, fun h1 h2 h3 => ?_, fun h1 h2 h3 => ?_⟩
  · simp [createPerson, h]
  · by_cases hn : strTrim p.Name = ""
    · exact ⟨"person must have a name", by simp [createPerson, hn]⟩
    · refine ⟨"person must belong to a department", ?_⟩
      have hn' : (strTrim p.Name == "") = false := beq_eq_false_iff_ne.mpr hn
      simp [createPerson, hn', h]
  · have hn : (strTrim p.Name == "") = false := beq_eq_false_iff_ne.mpr h1
    have hd : (p.Dept == 0) = false := beq_eq_false_iff_ne.mpr h2
    have hb : s.depts.any (fun d => d.ID == p.Dept) = false := by
      rw [Bool.eq_false_iff]
      intro hc
      rcases List.any_eq_true.mp hc with ⟨d, hdm, hdp⟩
      exact h3 d hdm (by simpa using hdp)
    simp [createPerson, hn, hd, hb]
  · have hn : (strTrim p.Name == "") = false := beq_eq_false_iff_ne.mpr h1
    have hd : (p.Dept == 0) = false := beq_eq_false_iff_ne.mpr h2
    rcases h3 with ⟨d, hdm, hdp⟩
    have hb : s.depts.any (fun d => d.ID == p.Dept) = true :=
      List.any_eq_true.mpr ⟨d, hdm, by simp [hdp]⟩
    simp [createPerson, hn, hd, hb]

/-- C4 witness: creating a valid person in an existing department succeeds
with the server-assigned id 8 and inserts exactly that record. -/
theorem claim_createPerson_witness :
    createPerson ⟨0, "bob", 1, "b@x", "2", "", "dev", "j"⟩ ⟨[⟨1, "root", 0⟩], [], 8⟩ =
      (.success 201 ⟨8, "bob", 1, "b@x", "2", "", "dev", "j"⟩,
        ⟨[⟨1, "root", 0⟩], [⟨8, "bob", 1, "b@x", "2", "", "dev", "j"⟩], 9⟩,
        [.add (fmtNameRoleInfo "bob" "dev" "j") 8]) :=
  (claim_createPerson ⟨0, "bob", 1, "b@x", "2", "", "dev", "j"⟩ ⟨[⟨1, "root", 0⟩], [], 8⟩).2.2.2
    (by decide) (by decide) ⟨⟨1, "root", 0⟩, by decide, rfl⟩

/-- C8: with a nonempty (after trimming) name, `updateDepartment` fails only
with a 500 internal error when the store fails; otherwise it unconditionally
overwrites the name and parent of the matching row (leaving the table
untouched when no row matches) and answers 200 with the submitted entity — it
never answers 404, even when the id matches no department. -/
theorem claim_updateDepartment (id : Int) (dept : Department) (dbFail : Bool) (s : DBState)
    (hname : strTrim dept.Name ≠ "") :
    (dbFail = true →
      updateDepartment id dept dbFail s =
        (.failure 500 "server error: database query failed", s))
    ∧ (dbFail = false →
      updateDepartment id dept dbFail s =
        (.success 200 { dept with ID := id },
          { s with depts := (s.depts.map
              (fun d => if d.ID == id then { d with Name := dept.Name, Parent := dept.Parent }
                else d)) }))
    ∧ (dbFail = false → (∀ d ∈ s.depts, d.ID ≠ id) →
      updateDepartment id dept dbFail s = (.success 200 { dept with ID := id }, s))
    ∧ (∀ m, (updateDepartment id dept dbFail s).1 ≠ .failure 404 m) := by
  have hn : (strTrim dept.Name == "") = false := beq_eq_false_iff_ne.mpr hname
  refine ⟨fun h => ?_, fun h => ?_, fun h hid => ?_, fun m => ?_⟩
  · simp [updateDepartment, hn, h]
  · simp [updateDepartment, hn, h]
  · have hmap : s.depts.map
        (fun d => if d.ID = id then { d with Name := dept.Name, Parent := dept.Parent }
          else d) = s.depts := by
      have hpt : ∀ d ∈ s.depts,
          (if d.ID = id then { d with Name := dept.Name, Parent := dept.Parent } else d) = d :=
        fun d hd => if_neg (hid d hd)
      rw [List.map_congr_left hpt]
      exact List.map_id _
    simp [updateDepartment, hn, h, hmap]
  · cases dbFail <;> simp [updateDepartment, hn]

/-- C8 witness: updating a department id that does not exist still answers
200 with the submitted entity and leaves the table unchanged. -/
theorem claim_updateDepartment_witness :
    updateDepartment 9 ⟨0, "ops", 0⟩ false ⟨[⟨1, "root", 0⟩], [], 2⟩ =
      (.success 200 ⟨9, "ops", 0⟩, ⟨[⟨1, "root", 0⟩], [], 2⟩) :=
  (claim_updateDepartment 9 ⟨0, "ops", 0⟩ false ⟨[⟨1, "root", 0⟩], [], 2⟩
    (by decide)).2.2.1 rfl (by decide)

/-- C5: on every successful `updatePerson`, the handler emits exactly two
index operations: first an unindex whose text is the `(Name, Role, Info)` of
the stored record as read before the overwrite, then an index whose text is
the submitted record's `(Name, Role, Info)` — old removed before new added. -/
theorem claim_updatePerson_indexing (id : Int) (p : Person) (s : DBState) (oldp : Person)
    (hdept : p.Dept ≠ 0) (hname : strTrim p.Name ≠ "")
    (hold : s.persons.find? (fun q => q.ID == id) = some oldp)
    (hdex : ∃ d ∈ s.depts, d.ID = p.Dept) :
    updatePerson id p s =
      (.success 200 p,
        { s with persons := s.persons.map (fun q => if q.ID == id then overwritePerson p q else q) },
        [.remove (fmtNameRoleInfo oldp.Name oldp.Role oldp.Info) id,
         .add (fmtNameRoleInfo p.Name p.Role p.Info) id]) := by
  have hd : (p.Dept == 0) = false := beq_eq_false_iff_ne.mpr hdept
  have hn : (strTrim p.Name == "") = false := beq_eq_false_iff_ne.mpr hname
  rcases hdex with ⟨d, hdm, hdp⟩
  have hb : s.depts.any (fun d => d.ID == p.Dept) = true :=
    List.any_eq_true.mpr ⟨d, hdm, by simp [hdp]⟩
  rw [updatePerson]
  simp [hd, hn, hold, hb]

/-- C5 witness: updating person 7 unindexes the old stored text and then
indexes the new text. -/
theorem claim_updatePerson_indexing_witness :
    updatePerson 7 ⟨0, "bo", 1, "b@x", "2", "", "ops", "k"⟩
        ⟨[⟨1, "root", 0⟩], [⟨7, "ann", 1, "a@x", "1", "", "boss", "i"⟩], 8⟩ =
      (.success 200 ⟨0, "bo", 1, "b@x", "2", "", "ops", "k"⟩,
        ⟨[⟨1, "root", 0⟩], [⟨7, "bo", 1, "b@x", "2", "", "ops", "k"⟩], 8⟩,
        [.remove (fmtNameRoleInfo "ann" "boss" "i") 7,
         .add (fmtNameRoleInfo "bo" "ops" "k") 7]) := by
  have h := claim_updatePerson_indexing 7 ⟨0, "bo", 1, "b@x", "2", "", "ops", "k"⟩
    ⟨[⟨1, "root", 0⟩], [⟨7, "ann", 1, "a@x", "1", "", "boss", "i"⟩], 8⟩
    ⟨7, "ann", 1, "a@x", "1", "", "boss", "i"⟩
    (by decide) (by decide) (by decide) ⟨⟨1, "root", 0⟩, by decide, rfl⟩
  rw [h]
  decide

/-- The removal loop deletes exactly the first matching entry when one is
present. -/
theorem removeFirstImage_eq_of_mem (f : String) :
    ∀ l : List String, f ∈ l →
      ∃ l₁ l₂, l = l₁ ++ f :: l₂ ∧ f ∉ l₁ ∧ removeFirstImage l f = l₁ ++ l₂ := by
  intro l
  induction l with
  | nil => intro h; cases h
  | cons x xs ih =>
    intro h
    by_cases hx : x = f
    · subst hx
      exact ⟨[], xs, rfl, List.not_mem_nil x, by simp [removeFirstImage]⟩
    · have hfxs : f ∈ xs := by
        rcases List.mem_cons.mp h with h' | h'
        · exact absurd h'.symm hx
        · exact h'
      rcases ih hfxs with ⟨l₁, l₂, hdec, hnm, hrm⟩
      refine ⟨x :: l₁, l₂, by rw [List.cons_append, ← hdec], ?_, ?_⟩
      · intro hc
        rcases List.mem_cons.mp hc with h' | h'
        · exact hx h'.symm
        · exact hnm h'
      · have hxf : (x == f) = false := beq_eq_false_iff_ne.mpr hx
        simp [removeFirstImage, hxf, hrm]

/-- The removal loop is the identity when no entry matches. -/
theorem removeFirstImage_eq_of_not_mem (f : String) :
    ∀ l : List String, f ∉ l → removeFirstImage l f = l := by
  intro l
  induction l with
  | nil => intro _; rfl
  | cons x xs ih =>
    intro h
    have hx : (x == f) = false :=
      beq_eq_false_iff_ne.mpr (fun hc => h (hc ▸ List.mem_cons_self x xs))
    have hxs : f ∉ xs := fun hc => h (List.mem_cons_of_mem x hc)
    simp [removeFirstImage, hx, ih hxs]

/-- C7 (amended): `deleteImage` rejects a missing filename with a 400
validation error; rejects with the in-use conflict when any person's `Img`
equals the filename; otherwise, when the file exists on disk, removes it and
splices the first matching entry out of the in-memory list (removing exactly
one entry when the filename is present, and none when it is absent); when the
disk removal fails the handler answers 500 and the list is untouched. -/
theorem claim_deleteImage (filename : String) (persons : List Person)
    (disk imgs : List String) :
    (filename = "" →
      deleteImage filename false persons disk imgs =
        ((400, some "missing filename parameter"), disk, imgs))
    ∧ (filename ≠ "" → (∃ p ∈ persons, p.Img = filename) →
      deleteImage filename false persons disk imgs =
        ((400, some "image is in use; cannot delete"), disk, imgs))
    ∧ (filename ≠ "" → (¬ ∃ p ∈ persons, p.Img = filename) → filename ∈ disk →
      deleteImage filename false persons disk imgs =
        ((204, none), disk.erase filename, removeFirstImage imgs filename))
    ∧ (filename ≠ "" → (¬ ∃ p ∈ persons, p.Img = filename) → filename ∉ disk →
      deleteImage filename false persons disk imgs =
        ((500, some "server error: failed to delete file"), disk, imgs))
    ∧ (filename ∈ imgs →
      ∃ l₁ l₂, imgs = l₁ ++ filename :: l₂ ∧ filename ∉ l₁ ∧
        removeFirstImage imgs filename = l₁ ++ l₂)
    ∧ (filename ∉ imgs → removeFirstImage imgs filename = imgs) := by
  have huse : ∀ (h : ∃ p ∈ persons, p.Img = filename),
      persons.any (fun p => p.Img == filename) = true := by
    rintro ⟨p, hp, hpi⟩
    exact List.any_eq_true.mpr ⟨p, hp, by simp [hpi]⟩
  refine ⟨fun h => ?_, fun h1 h2 => ?_, fun h1 h2 h3 => ?_, fun h1 h2 h3 => ?_,
    removeFirstImage_eq_of_mem filename imgs, removeFirstImage_eq_of_not_mem filename imgs⟩
  · simp [deleteImage, h]
  · have hf : (filename == "") = false := beq_eq_false_iff_ne.mpr h1
    simp [deleteImage, hf, huse h2]
  · have hf : (filename == "") = false := beq_eq_false_iff_ne.mpr h1
    have hb : persons.any (fun p => p.Img == filename) = false :=
      Bool.eq_false_iff.mpr (fun hc => by
        rcases List.any_eq_true.mp hc with ⟨p, hp, hpi⟩
        exact h2 ⟨p, hp, by simpa using hpi⟩)
    have hdk : disk.contains filename = true := by
      simpa using h3
    simp only [deleteImage, hf, hb, hdk]
    simp
  · have hf : (filename == "") = false := beq_eq_false_iff_ne.mpr h1
    have hb : persons.any (fun p => p.Img == filename) = false :=
      Bool.eq_false_iff.mpr (fun hc => by
        rcases List.any_eq_true.mp hc with ⟨p, hp, hpi⟩
        exact h2 ⟨p, hp, by simpa using hpi⟩)
    have hdk : disk.contains filename = false := by
      simpa using h3
    simp only [deleteImage, hf, hb, hdk]
    simp

/-- C7 witness: deleting an unreferenced image that is on disk and listed
removes the file and exactly the first matching list entry. -/
theorem claim_deleteImage_witness :
    deleteImage "x.png" false [] ["x.png", "y.png"] ["y.png", "x.png"] =
      ((204, none), ["y.png"], ["y.png"]) := by
  have h := (claim_deleteImage "x.png" [] ["x.png", "y.png"] ["y.png", "x.png"]).2.2.1
    (by decide) (by rintro ⟨p, hp, _⟩; cases hp) (by decide)
  rw [h]
  decide

/-- C7 counterexample: with the file on disk but absent from the in-memory
list, deletion succeeds (status 204) yet removes no list entry — so the
success path does not always remove exactly one entry. -/
theorem claim_deleteImage_cex :
    (deleteImage "x.png" false [] ["x.png"] []).1.1 = 204 ∧
      ¬ ((deleteImage "x.png" false [] ["x.png"] []).2.2.length + 1 =
        ([] : List String).length) := by
  decide

/-- C10: whenever `deleteImage` fails (any non-204 outcome: missing filename,
store failure, in-use conflict, or file-removal failure), both the disk and
the shared in-memory image list are unchanged. -/
theorem claim_deleteImage_unchanged_on_failure (filename : String) (dbFail : Bool)
    (persons : List Person) (disk imgs : List String)
    (h : (deleteImage filename dbFail persons disk imgs).1.1 ≠ 204) :
    (deleteImage filename dbFail persons disk imgs).2.1 = disk ∧
      (deleteImage filename dbFail persons disk imgs).2.2 = imgs := by
  unfold deleteImage at h ⊢
  split_ifs at h ⊢ <;> simp_all

/-- C10 witness: deleting an in-use image fails and leaves the list alone. -/
theorem claim_deleteImage_unchanged_on_failure_witness :
    (deleteImage "x.png" false [⟨7, "ann", 1, "a@x", "1", "x.png", "boss", "i"⟩]
        ["x.png"] ["x.png"]).2.1 = ["x.png"] ∧
      (deleteImage "x.png" false [⟨7, "ann", 1, "a@x", "1", "x.png", "boss", "i"⟩]
        ["x.png"] ["x.png"]).2.2 = ["x.png"] :=
  claim_deleteImage_unchanged_on_failure "x.png" false
    [⟨7, "ann", 1, "a@x", "1", "x.png", "boss", "i"⟩] ["x.png"] ["x.png"] (by decide)

/-! ## Full-text search (`searchPersons`, api.go; analyzer from folk.go) -/

/-- Case folding applied character by character, as `strings.ToLower` does on
the texts this service indexes. -/
def lowerChars (s : String) : List Char := s.data.map Char.toLower

/-- `strings.Split(·, " ")`: the (possibly empty) fields between each single
space, in order. -/
def splitOnSpace : List Char → List (List Char)
  | [] => [[]]
  | c :: cs =>
    if c = ' ' then [] :: splitOnSpace cs
    else
      match splitOnSpace cs with
      | [] => [[c]]
      | w :: ws => (c :: w) :: ws

/-- The query tokenization of `searchPersons` (api.go):
`strings.Split(strings.ToLower(q), " ")`. -/
def queryTerms (q : String) : List String :=
  (splitOnSpace (lowerChars q)).map (fun w => ⟨w⟩)

/-- Modelled from the spec: the tokenization of the `ftx` n-gram analyzer
created by `ftx.NewNGramAnalyzer(1, 20)` in folk.go (the analyzer's source is
not part of this repository) — all case-folded overlapping substrings of 1 to
20 characters of the indexed text.  `substringsAt cs start` lists the
substrings beginning at `start`. -/
def substringsAt (cs : List Char) (start : Nat) : List String :=
  (List.range' 1 20).filterMap (fun len =>
    if start + len ≤ cs.length then some ⟨(cs.drop start).take len⟩ else none)

/-- Modelled from the spec: `index(text, id)` records `token → id` for every
case-folded 1–20-character substring of `text`; these are the tokens. -/
def indexTokens (text : String) : List String :=
  (List.range (lowerChars text).length).flatMap (fun st => substringsAt (lowerChars text) st)

/-- Modelled from the spec: the posting list of a term — the ids of the
indexed documents (id, text) one of whose tokens equals the term. -/
def termPostings (docs : List (Int × String)) (t : String) : List Int :=
  (docs.filter (fun d => (indexTokens d.2).contains t)).map (fun d => d.1)

/-- Modelled from the spec: the `Must` conjunction of `index.NewQuery()` —
the ids lying in the posting list of every term. -/
def mustHits (docs : List (Int × String)) : List String → List Int
  | [] => []
  | t :: ts =>
    ts.foldl (fun acc t' => acc.filter (fun id => (termPostings docs t').contains id))
      (termPostings docs t)

/-- Insertion into an ordered integer set, the effect of `intset.BitSet.Add`;
`All()` returns the members in ascending order, so the set is kept as a
strictly ascending list. -/
def setAdd (l : List Int) (x : Int) : List Int :=
  match l with
  | [] => [x]
  | y :: ys => if x < y then x :: y :: ys else if x = y then y :: ys else y :: setAdd ys x

/-- `srAsIntSet` (api.go): collect the raw hit ids into a bit-set. -/
def srAsIntSet (hits : List Int) : List Int := hits.foldl setAdd []

/-- The `searchResults` payload of api.go.  The wall-clock `TookMs` field is
not modelled. -/
structure SearchResults where
  Count : Nat
  Hits : List Int
deriving DecidableEq, Repr

/-- `searchPersons` (api.go): lower-case the query, split it on spaces, take
the conjunction of the per-term postings, collect the hits into a set, and
report the set with its size. -/
def searchPersons (docs : List (Int × String)) (q : String) : SearchResults :=
  ⟨(srAsIntSet (mustHits docs (queryTerms q))).length,
    srAsIntSet (mustHits docs (queryTerms q))⟩

/-- Written from the claim's words: a search that tokenizes the query the
same way `index` does, i.e. into the analyzer's n-gram tokens. -/
def searchPersonsSameTok (docs : List (Int × String)) (q : String) : SearchResults :=
  ⟨(srAsIntSet (mustHits docs (indexTokens q))).length,
    srAsIntSet (mustHits docs (indexTokens q))⟩

/-- Membership in an ordered-set insertion. -/
theorem mem_setAdd (x a : Int) : ∀ l : List Int, a ∈ setAdd l x ↔ a = x ∨ a ∈ l := by
  intro l
  induction l with
  | nil => simp [setAdd]
  | cons y ys ih =>
    by_cases h1 : x < y
    · simp [setAdd, h1]
    · by_cases h2 : x = y
      · subst h2
        simp only [setAdd, if_neg h1, if_pos rfl]
        constructor
        · exact fun h => Or.inr h
        · rintro (rfl | h) <;> simp_all
      · simp only [setAdd, if_neg h1, if_neg h2, List.mem_cons, ih]
        tauto

/-- Membership in the bit-set built from the raw hits. -/
theorem mem_srAsIntSet_aux (a : Int) :
    ∀ (hits acc : List Int), a ∈ hits.foldl setAdd acc ↔ a ∈ acc ∨ a ∈ hits := by
  intro hits
  induction hits with
  | nil => simp
  | cons h t ih =>
    intro acc
    rw [List.foldl_cons, ih (setAdd acc h), mem_setAdd]
    simp only [List.mem_cons]
    tauto

/-- Membership in the folded conjunction of posting lists. -/
theorem mem_mustHits_foldl (docs : List (Int × String)) (id : Int) :
    ∀ (ts : List String) (init : List Int),
      id ∈ ts.foldl (fun acc t' => acc.filter (fun i => (termPostings docs t').contains i)) init ↔
        id ∈ init ∧ ∀ t ∈ ts, id ∈ termPostings docs t := by
  intro ts
  induction ts with
  | nil => simp
  | cons t ts ih =>
    intro init
    rw [List.foldl_cons, ih]
    simp only [List.mem_filter, List.mem_cons]
    constructor
    · rintro ⟨⟨h1, h2⟩, h3⟩
      refine ⟨h1, fun u hu => ?_⟩
      rcases hu with rfl | hu
      · simpa using h2
      · exact h3 u hu
    · rintro ⟨h1, h2⟩
      exact ⟨⟨h1, by simpa using h2 t (Or.inl rfl)⟩, fun u hu => h2 u (Or.inr hu)⟩

/-- The conjunction of the per-term postings: an id is a hit of `mustHits`
exactly when the term list is nonempty and the id lies in every term's
posting list. -/
theorem mem_mustHits (docs : List (Int × String)) (id : Int) :
    ∀ terms : List String,
      id ∈ mustHits docs terms ↔ terms ≠ [] ∧ ∀ t ∈ terms, id ∈ termPostings docs t := by
  intro terms
  cases terms with
  | nil => simp [mustHits]
  | cons t ts =>
    rw [mustHits, mem_mustHits_foldl]
    simp only [List.mem_cons, ne_eq, reduceCtorEq, not_false_eq_true, true_and]
    constructor
    · rintro ⟨h1, h2⟩
      rintro u (rfl | hu)
      · exact h1
      · exact h2 u hu
    · intro h
      exact ⟨h t (Or.inl rfl), fun u hu => h u (Or.inr hu)⟩

/-- C2 (amended): `searchPersons` tokenizes the query by lower-casing it and
splitting on single spaces (it does not n-gram the query the way `index`
tokenizes document text); an id is a hit exactly when it lies in the posting
list of every such query term; the result carries the hit id set together
with its count. -/
theorem claim_search_query (docs : List (Int × String)) (q : String) :
    (∀ id : Int, id ∈ (searchPersons docs q).Hits ↔
      queryTerms q ≠ [] ∧ ∀ t ∈ queryTerms q, id ∈ termPostings docs t)
    ∧ (searchPersons docs q).Count = (searchPersons docs q).Hits.length := by
  refine ⟨fun id => ?_, rfl⟩
  rw [searchPersons]
  show id ∈ srAsIntSet (mustHits docs (queryTerms q)) ↔ _
  rw [srAsIntSet, mem_srAsIntSet_aux]
  simp only [List.not_mem_nil, false_or]
  exact mem_mustHits docs id (queryTerms q)

/-- C2 counterexample: on the document `(1, "b a")` and the query `"a b"` the
code's space-splitting query returns the hit `1`, while tokenizing the query
the same way as `index` (n-grams, which include the token `"a b"`) returns no
hit; and the two tokenizations of `"ab"` differ outright. -/
theorem claim_search_query_cex :
    (searchPersons [(1, "b a")] "a b").Hits = [1] ∧
      (searchPersonsSameTok [(1, "b a")] "a b").Hits = [] ∧
      queryTerms "ab" ≠ indexTokens "ab" := by
  decide

/-- Ordered-set insertion preserves strict ascending order. -/
theorem setAdd_sorted (x : Int) :
    ∀ l : List Int, l.Sorted (· < ·) → (setAdd l x).Sorted (· < ·) := by
  intro l
  induction l with
  | nil => intro _; simp [setAdd]
  | cons y ys ih =>
    intro hs
    have hy : ∀ b ∈ ys, y < b := List.rel_of_sorted_cons hs
    have hys : ys.Sorted (· < ·) := hs.of_cons
    by_cases h1 : x < y
    · rw [setAdd, if_pos h1, List.sorted_cons]
      exact ⟨fun b hb => by
        rcases List.mem_cons.mp hb with rfl | hb
        · exact h1
        · exact h1.trans (hy b hb), hs⟩
    · by_cases h2 : x = y
      · rw [setAdd, if_neg h1, if_pos h2]
        exact hs
      · rw [setAdd, if_neg h1, if_neg h2, List.sorted_cons]
        refine ⟨fun b hb => ?_, ih hys⟩
        rcases (mem_setAdd x b ys).mp hb with rfl | hb
        · omega
        · exact hy b hb

/-- The bit-set built from any hit list is strictly ascending. -/
theorem srAsIntSet_sorted_aux :
    ∀ (hits acc : List Int), acc.Sorted (· < ·) →
      (hits.foldl setAdd acc).Sorted (· < ·) := by
  intro hits
  induction hits with
  | nil => exact fun acc h => h
  | cons h t ih => exact fun acc hacc => ih (setAdd acc h) (setAdd_sorted h acc hacc)

/-- C9: every search result satisfies `Count = Hits.length`, and `Hits` holds
no duplicate ids — the raw hits are collected into a set before being counted
and listed. -/
theorem claim_search_results_invariant (docs : List (Int × String)) (q : String) :
    (searchPersons docs q).Count = (searchPersons docs q).Hits.length ∧
      (searchPersons docs q).Hits.Nodup := by
  refine ⟨rfl, ?_⟩
  have hs : (searchPersons docs q).Hits.Sorted (· < ·) :=
    srAsIntSet_sorted_aux (mustHits docs (queryTerms q)) [] List.sorted_nil
  exact hs.nodup

/-! ## Random shuffle (`shufflePersons`, api.go) -/

/-- Writing a list element by position: `l.set i x` is splicing `x` into
place `i`. -/
theorem set_eq_take_cons_drop {α : Type} (x : α) :
    ∀ (l : List α) (i : Nat), i < l.length →
      l.set i x = l.take i ++ x :: l.drop (i + 1) := by
  intro l
  induction l with
  | nil => intro i h; cases h
  | cons a t ih =>
    intro i h
    cases i with
    | zero => rfl
    | succ i =>
      have : i < t.length := by simpa using h
      simp only [List.set_cons_succ, List.take_succ_cons, List.drop_succ_cons,
        List.cons_append, ih i this]

/-- Every list splits at any in-range position. -/
theorem eq_take_cons_drop {α : Type} :
    ∀ (l : List α) (i : Nat) (h : i < l.length),
      l = l.take i ++ l[i] :: l.drop (i + 1) := by
  intro l
  induction l with
  | nil => intro i h; cases h
  | cons a t ih =>
    intro i h
    cases i with
    | zero => rfl
    | succ i =>
      have h' : i < t.length := by simpa using h
      simp only [List.take_succ_cons, List.drop_succ_cons, List.cons_append,
        List.getElem_cons_succ]
      exact congrArg (a :: ·) (ih i h')

/-- Counting through a single write: the written value replaces the old one. -/
theorem count_set {α : Type} [DecidableEq α] (l : List α) (i : Nat) (x : α)
    (h : i < l.length) (c : α) :
    (l.set i x).count c + (if l[i] = c then 1 else 0) =
      l.count c + (if x = c then 1 else 0) := by
  have hl : l.count c = (l.take i ++ l[i] :: l.drop (i + 1)).count c := by
    rw [← eq_take_cons_drop l i h]
  rw [set_eq_take_cons_drop x l i h, hl, List.count_append, List.count_append,
    List.count_cons, List.count_cons]
  by_cases h1 : l[i] = c <;> by_cases h2 : x = c <;> simp [h1, h2] <;> omega

/-- The in-place `ps[r], ps[i] = ps[i], ps[r]` exchange. -/
def swap {α : Type} (l : List α) (i j : Nat) : List α :=
  match l[i]?, l[j]? with
  | some a, some b => (l.set i b).set j a
  | some _, none => l
  | none, some _ => l
  | none, none => l

/-- An exchange permutes the list. -/
theorem swap_perm {α : Type} [DecidableEq α] (l : List α) (i j : Nat) :
    (swap l i j).Perm l := by
  cases hi : l[i]? with
  | none =>
    cases hj : l[j]? with
    | none => simp [swap, hi, hj]
    | some b => simp [swap, hi, hj]
  | some a =>
    cases hj : l[j]? with
    | none => simp [swap, hi, hj]
    | some b =>
      have hswap : swap l i j = (l.set i b).set j a := by
        simp [swap, hi, hj]
      rcases List.getElem?_eq_some_iff.mp hi with ⟨hil, hia⟩
      rcases List.getElem?_eq_some_iff.mp hj with ⟨hjl, hjb⟩
      rw [hswap]
      by_cases hij : i = j
      · subst hij
        rw [List.set_set, ← hia, set_eq_take_cons_drop l[i] l i hil,
          ← eq_take_cons_drop l i hil]
      · rw [List.perm_iff_count]
        intro c
        have hjl' : j < (l.set i b).length := by simpa using hjl
        have e1 := count_set l i b hil c
        have e2 := count_set (l.set i b) j a hjl' c
        have hsj : (l.set i b)[j] = b := by
          rw [List.getElem_set_ne hij]
          exact hjb
        rw [hsj] at e2
        by_cases h1 : l[i] = c <;> by_cases h2 : b = c <;>
          subst hia <;> simp [h1, h2] at e1 e2 ⊢ <;> omega

/-- The loop of `shufflePersons` (api.go): `for i := 1; i < len(ps); i++`,
swapping `ps[i]` with `ps[r]` for `r := rand.Intn(i + 1)` unless `i == r`.
The random draws are a function `R` from the position to the drawn value
(reduced mod `i+1`, as `rand.Intn(i+1)` yields a value in `0..i`); the fuel
counts the remaining iterations and is always sufficient when the loop
starts. -/
def fyFuel (R : Nat → Nat) : Nat → List Person → Nat → List Person
  | 0, ps, _ => ps
  | fuel + 1, ps, i =>
    if i < ps.length then
      fyFuel R fuel
        (if i ≠ R i % (i + 1) then swap ps (R i % (i + 1)) i else ps) (i + 1)
    else ps

/-- `shufflePersons` (api.go): Fisher–Yates over the fetched page, iterating
the positions upward from 1. -/
def shufflePersons (R : Nat → Nat) (ps : List Person) : List Person :=
  fyFuel R ps.length ps 1

/-- Written from the claim's words: the same per-position swaps, but iterating
the positions from the end of the page down to the second element. -/
def fyDescGo (R : Nat → Nat) : Nat → List Person → List Person
  | 0, ps => ps
  | i + 1, ps =>
    fyDescGo R i
      (if i + 1 ≠ R (i + 1) % (i + 2) then swap ps (R (i + 1) % (i + 2)) (i + 1) else ps)

/-- Written from the claim's words: the descending-order shuffle. -/
def shuffleDescSpec (R : Nat → Nat) (ps : List Person) : List Person :=
  fyDescGo R (ps.length - 1) ps

/-- The loop permutes the page whatever the draws are. -/
theorem fyFuel_perm (R : Nat → Nat) :
    ∀ (fuel : Nat) (ps : List Person) (i : Nat), (fyFuel R fuel ps i).Perm ps := by
  intro fuel
  induction fuel with
  | zero => intro ps i; exact List.Perm.refl ps
  | succ n ih =>
    intro ps i
    rw [fyFuel]
    split
    · refine (ih _ _).trans ?_
      split
      · exact swap_perm ps _ i
      · exact List.Perm.refl ps
    · exact List.Perm.refl ps

/-- Three persons for the uniformity check. -/
def pa : Person := ⟨1, "a", 1, "", "", "", "", ""⟩

def pb : Person := ⟨2, "b", 1, "", "", "", "", ""⟩

def pc : Person := ⟨3, "c", 1, "", "", "", "", ""⟩

instance existsUniqueDecidable {α : Type} [Fintype α] [DecidableEq α]
    (p : α → Prop) [DecidablePred p] : Decidable (∃! a, p a) :=
  decidable_of_iff (∃ a, p a ∧ ∀ b, p b → b = a) Iff.rfl

/-- The six orderings of the three-person example page. -/
def perms3 : List (List Person) :=
  [[pa, pb, pc], [pa, pc, pb], [pb, pa, pc], [pb, pc, pa], [pc, pa, pb], [pc, pb, pa]]

/-- C6 (amended): `shufflePersons` iterates the positions from the second
element up to the end of the page, swapping each with a position drawn
uniformly from the earlier-or-equal ones; the result is always a permutation
of the fetched page, and the shuffle is uniform: on the three-element example
page every one of the six orderings arises from exactly one pair of draws. -/
theorem claim_shuffle :
    (∀ (R : Nat → Nat) (ps : List Person), (shufflePersons R ps).Perm ps)
    ∧ (∀ q ∈ perms3,
        ∃! r : Fin 2 × Fin 3,
          shufflePersons (fun i => if i = 1 then r.1.val else r.2.val) [pa, pb, pc] = q) := by
  constructor
  · intro R ps
    exact fyFuel_perm R ps.length ps 1
  · decide

/-- C6 witness: the permutation shape of a concrete shuffle, and the unique
draw pair realising one concrete outcome. -/
theorem claim_shuffle_witness :
    (shufflePersons (fun _ => 0) [pa, pb, pc]).Perm [pa, pb, pc] ∧
      ∃! r : Fin 2 × Fin 3,
        shufflePersons (fun i => if i = 1 then r.1.val else r.2.val) [pa, pb, pc] =
          [pb, pa, pc] :=
  ⟨claim_shuffle.1 (fun _ => 0) [pa, pb, pc],
    claim_shuffle.2 [pb, pa, pc] (by decide)⟩

/-- C6 counterexample: with the same per-position draws (always drawing 0),
the code's ascending loop and the claim's descending loop produce different
results on a three-element page — the code does not iterate from the end of
the page down to the second element. -/
theorem claim_shuffle_cex :
    shufflePersons (fun _ => 0) [pa, pb, pc] ≠
      shuffleDescSpec (fun _ => 0) [pa, pb, pc] := by
  decide

end Folk
